import Mathlib

/-!
Verification of the ELI5 query-serving pipeline
(src/backend/rag/pipeline.py, src/backend/api/middleware.py,
src/backend/utils/cache.py) against its specification.

Strings are modelled as lists of characters; time as integers (seconds).
-/

namespace ELI5

/-! ## Context Assembler (pipeline.py, query / stream_query)

A retrieval result as consumed by the packing loop of `RAGPipeline.query`:
content plus the metadata fields the loop reads (`metadata.get('filename',
'Unknown')`, `metadata.get('chunk_index', 0)`, `similarity_score`).  The
similarity score is carried through verbatim; Python's `round(score, 3)`
on a float is not modelled (no claim depends on its value). -/

structure RetrievedChunk where
  content : List Char
  filename : Option (List Char)
  chunk_index : Option Nat
  similarity_score : Int
  deriving DecidableEq

/-- A source-attribution entry of `sources_used`.  The Boolean `truncated`
models the optional Python dict key marking a partially included chunk:
entries for fully included chunks omit that key, i.e. `truncated = false`. -/
structure SourceInfo where
  filename : List Char
  chunk_index : Nat
  similarity_score : Int
  truncated : Bool
  deriving DecidableEq

def unknownFilename : List Char := ("Unknown").toList

def mkSourceInfo (d : RetrievedChunk) (tr : Bool) : SourceInfo :=
  { filename := d.filename.getD unknownFilename,
    chunk_index := d.chunk_index.getD 0,
    similarity_score := d.similarity_score,
    truncated := tr }

/-- The marker appended to a truncated chunk: `"..."`. -/
def ellipsis : List Char := ['.', '.', '.']

/-- The separator joining context parts: `"\n\n---\n\n"` (7 characters). -/
def contextSeparator : List Char := ['\n', '\n', '-', '-', '-', '\n', '\n']

/-- Python `s.rsplit(' ', 1)[0]`: everything before the last space
character; the whole string when it has no space. -/
def trimLastSpace (s : List Char) : List Char :=
  match (s.reverse).dropWhile (fun c => c ≠ ' ') with
  | [] => s
  | _ :: rest => rest.reverse

/-- The packing loop of `RAGPipeline.query` (pipeline.py, step 4): iterate
chunks with a running consumed length; a chunk whose content fits whole is
appended with a full source entry; at the first chunk that does not fit,
if more than 200 characters of budget remain, its prefix of `remaining`
characters is back-trimmed at the last space, `"..."` is appended, a
truncated source entry is recorded, and the loop stops; otherwise the loop
stops with nothing added.  Returns (context_parts, sources_used). -/
def packParts : List RetrievedChunk → Nat → Nat → List (List Char) × List SourceInfo
  | [], _, _ => ([], [])
  | d :: rest, maxLen, consumed =>
    if consumed + d.content.length ≤ maxLen then
      let r := packParts rest maxLen (consumed + d.content.length)
      (d.content :: r.1, mkSourceInfo d false :: r.2)
    else
      let remaining := maxLen - consumed
      if 200 < remaining then
        ([trimLastSpace (d.content.take remaining) ++ ellipsis], [mkSourceInfo d true])
      else
        ([], [])

/-- The packing loop of `RAGPipeline.stream_query` (pipeline.py): same
shape, but the partial part is the raw `remaining`-character prefix plus
`"..."` with no back-trim, and no source entries are kept. -/
def streamPackParts : List RetrievedChunk → Nat → Nat → List (List Char)
  | [], _, _ => []
  | d :: rest, maxLen, consumed =>
    if consumed + d.content.length ≤ maxLen then
      d.content :: streamPackParts rest maxLen (consumed + d.content.length)
    else
      let remaining := maxLen - consumed
      if 200 < remaining then
        [d.content.take remaining ++ ellipsis]
      else
        []

/-- Python `"\n\n---\n\n".join(context_parts)`. -/
def joinParts : List (List Char) → List Char
  | [] => []
  | [p] => p
  | p :: ps => p ++ contextSeparator ++ joinParts ps

/-- The context string built by the synchronous `query` path. -/
def packContext (docs : List RetrievedChunk) (maxLen : Nat) : List Char :=
  joinParts (packParts docs maxLen 0).1

/-- The context string built by the streaming `stream_query` path. -/
def streamContext (docs : List RetrievedChunk) (maxLen : Nat) : List Char :=
  joinParts (streamPackParts docs maxLen 0)

/-! ### The packing algorithm as the specification words it -/

/-- Everything before the last whitespace character of `s` (`s` itself
when it has none): the literal reading of trimming back to the last
whitespace boundary. -/
def trimLastWhitespace (s : List Char) : List Char :=
  match (s.reverse).dropWhile (fun c => ¬ c.isWhitespace) with
  | [] => s
  | _ :: rest => rest.reverse

/-- Accumulator of the claim-side packing fold: parts and sources built so
far, the running consumed length, and whether iteration has stopped. -/
structure PackAcc where
  parts : List (List Char)
  consumed : Nat
  sources : List SourceInfo
  stopped : Bool
  deriving DecidableEq

/-- One iteration of the packing algorithm as the specification states it,
parameterized by the trimming applied to a partial chunk: a chunk that
fits whole is appended with a non-partial source entry; at the first chunk
that does not fit, when more than 200 characters remain the trimmed prefix
plus the ellipsis is emitted with a truncated source entry and iteration
stops, otherwise iteration stops with nothing emitted. -/
def packStep (trim : List Char → List Char) (maxLen : Nat) (acc : PackAcc)
    (d : RetrievedChunk) : PackAcc :=
  if acc.stopped then acc
  else if acc.consumed + d.content.length ≤ maxLen then
    { parts := acc.parts ++ [d.content],
      consumed := acc.consumed + d.content.length,
      sources := acc.sources ++ [mkSourceInfo d false],
      stopped := false }
  else if 200 < maxLen - acc.consumed then
    { parts := acc.parts ++ [trim (d.content.take (maxLen - acc.consumed)) ++ ellipsis],
      consumed := acc.consumed,
      sources := acc.sources ++ [mkSourceInfo d true],
      stopped := true }
  else
    { acc with stopped := true }

/-- The full packing algorithm as specified: fold `packStep` over the
ranked chunks in the given order. -/
def packAlg (trim : List Char → List Char) (docs : List RetrievedChunk) (maxLen : Nat) :
    List (List Char) × List SourceInfo :=
  let acc := docs.foldl (packStep trim maxLen) ⟨[], 0, [], false⟩
  (acc.parts, acc.sources)

/-- `packParts` generalized over the trimming function. -/
def packPartsWith (trim : List Char → List Char) :
    List RetrievedChunk → Nat → Nat → List (List Char) × List SourceInfo
  | [], _, _ => ([], [])
  | d :: rest, maxLen, consumed =>
    if consumed + d.content.length ≤ maxLen then
      let r := packPartsWith trim rest maxLen (consumed + d.content.length)
      (d.content :: r.1, mkSourceInfo d false :: r.2)
    else if 200 < maxLen - consumed then
      ([trim (d.content.take (maxLen - consumed)) ++ ellipsis], [mkSourceInfo d true])
    else
      ([], [])

lemma packParts_eq_with (docs : List RetrievedChunk) (maxLen consumed : Nat) :
    packParts docs maxLen consumed = packPartsWith trimLastSpace docs maxLen consumed := by
  induction docs generalizing consumed with
  | nil => rfl
  | cons d rest ih =>
    simp only [packParts, packPartsWith]
    split
    · simp [ih]
    · rfl

lemma foldl_packStep_stopped (trim : List Char → List Char) (maxLen : Nat) :
    ∀ (docs : List RetrievedChunk) (acc : PackAcc), acc.stopped = true →
      docs.foldl (packStep trim maxLen) acc = acc := by
  intro docs
  induction docs with
  | nil => intro acc _; rfl
  | cons d rest ih =>
    intro acc h
    have hstep : packStep trim maxLen acc d = acc := by simp [packStep, h]
    simp only [List.foldl_cons, hstep]
    exact ih acc h

lemma foldl_packStep_eq (trim : List Char → List Char) (maxLen : Nat) :
    ∀ (docs : List RetrievedChunk) (parts : List (List Char)) (consumed : Nat)
      (sources : List SourceInfo),
      (docs.foldl (packStep trim maxLen) ⟨parts, consumed, sources, false⟩).parts
          = parts ++ (packPartsWith trim docs maxLen consumed).1
        ∧ (docs.foldl (packStep trim maxLen) ⟨parts, consumed, sources, false⟩).sources
          = sources ++ (packPartsWith trim docs maxLen consumed).2 := by
  intro docs
  induction docs with
  | nil => intro parts consumed sources; simp [packPartsWith]
  | cons d rest ih =>
    intro parts consumed sources
    by_cases h1 : consumed + d.content.length ≤ maxLen
    · have hstep : packStep trim maxLen ⟨parts, consumed, sources, false⟩ d =
          ⟨parts ++ [d.content], consumed + d.content.length,
            sources ++ [mkSourceInfo d false], false⟩ := by
        simp [packStep, h1]
      obtain ⟨hp, hs⟩ := ih (parts ++ [d.content]) (consumed + d.content.length)
        (sources ++ [mkSourceInfo d false])
      simp only [List.foldl_cons, hstep, hp, hs, packPartsWith, if_pos h1]
      constructor <;> simp
    · by_cases h2 : 200 < maxLen - consumed
      · have hstep : packStep trim maxLen ⟨parts, consumed, sources, false⟩ d =
            ⟨parts ++ [trim (d.content.take (maxLen - consumed)) ++ ellipsis], consumed,
              sources ++ [mkSourceInfo d true], true⟩ := by
          simp [packStep, h1, h2]
        have hstop := foldl_packStep_stopped trim maxLen rest
          ⟨parts ++ [trim (d.content.take (maxLen - consumed)) ++ ellipsis], consumed,
            sources ++ [mkSourceInfo d true], true⟩ rfl
        simp only [List.foldl_cons, hstep, hstop, packPartsWith, if_neg h1, if_pos h2]
        simp
      · have hstep : packStep trim maxLen ⟨parts, consumed, sources, false⟩ d =
            ⟨parts, consumed, sources, true⟩ := by
          simp [packStep, h1, h2]
        have hstop := foldl_packStep_stopped trim maxLen rest
          ⟨parts, consumed, sources, true⟩ rfl
        simp only [List.foldl_cons, hstep, hstop, packPartsWith, if_neg h1, if_neg h2]
        constructor <;> simp

lemma packAlg_eq (trim : List Char → List Char) (docs : List RetrievedChunk) (maxLen : Nat) :
    packAlg trim docs maxLen = packPartsWith trim docs maxLen 0 := by
  obtain ⟨hp, hs⟩ := foldl_packStep_eq trim maxLen docs [] 0 []
  simp only [packAlg, hp, hs, List.nil_append]

/-! ### Facts about the space trim -/

lemma dropWhile_head_not {α : Type} {p : α → Bool} :
    ∀ {l : List α} {c : α} {rest : List α}, l.dropWhile p = c :: rest → p c = false := by
  intro l
  induction l with
  | nil => intro c rest h; simp [List.dropWhile] at h
  | cons a l ih =>
    intro c rest h
    by_cases hp : p a
    · rw [List.dropWhile_cons, if_pos hp] at h
      exact ih h
    · rw [List.dropWhile_cons, if_neg hp] at h
      cases h
      simpa using hp

lemma trimLastSpace_decomp (s : List Char) :
    ∃ t, trimLastSpace s ++ t = s ∧ (t = [] ∨ ∃ u, t = ' ' :: u) := by
  unfold trimLastSpace
  split
  · exact ⟨[], by simp, Or.inl rfl⟩
  · rename_i c rest heq
    have hc : c = ' ' := by
      have := dropWhile_head_not heq
      simpa using this
    have hsplit := List.takeWhile_append_dropWhile (fun c => decide (c ≠ ' ')) s.reverse
    rw [heq] at hsplit
    refine ⟨c :: ((s.reverse).takeWhile (fun c => decide (c ≠ ' '))).reverse, ?_,
      Or.inr ⟨((s.reverse).takeWhile (fun c => decide (c ≠ ' '))).reverse, by rw [hc]⟩⟩
    calc rest.reverse ++ (c :: ((s.reverse).takeWhile (fun c => decide (c ≠ ' '))).reverse)
        = ((s.reverse).takeWhile (fun c => decide (c ≠ ' ')) ++ (c :: rest)).reverse := by
          rw [List.reverse_append, List.reverse_cons]
          simp only [List.append_assoc, List.singleton_append]
      _ = (s.reverse).reverse := by rw [hsplit]
      _ = s := List.reverse_reverse s

lemma trimLastSpace_length_le (s : List Char) : (trimLastSpace s).length ≤ s.length := by
  obtain ⟨t, ht, -⟩ := trimLastSpace_decomp s
  have := congrArg List.length ht
  simp only [List.length_append] at this
  omega

lemma trimLastSpace_take_le (s : List Char) (n : Nat) :
    (trimLastSpace (s.take n)).length ≤ n := by
  refine le_trans (trimLastSpace_length_le _) ?_
  simp [List.length_take]

/-! ### Budget accounting for the packing loop -/

/-- Total length of the emitted parts. -/
def sumLens (ps : List (List Char)) : Nat := (ps.map List.length).sum

/-- Chunk-content characters charged against the budget: for a truncated
part the three ellipsis characters are not content. -/
def chargedChars : List (List Char) → List SourceInfo → Nat
  | p :: ps, s :: ss => (cond s.truncated (p.length - 3) p.length) + chargedChars ps ss
  | _, _ => 0

lemma packParts_charged_le :
    ∀ (docs : List RetrievedChunk) (maxLen consumed : Nat), consumed ≤ maxLen →
      consumed + chargedChars (packParts docs maxLen consumed).1
          (packParts docs maxLen consumed).2 ≤ maxLen := by
  intro docs
  induction docs with
  | nil => intro maxLen consumed h; simpa [packParts, chargedChars]
  | cons d rest ih =>
    intro maxLen consumed h
    by_cases h1 : consumed + d.content.length ≤ maxLen
    · have := ih maxLen (consumed + d.content.length) h1
      simp only [packParts, if_pos h1, chargedChars, mkSourceInfo, cond_false] at *
      omega
    · by_cases h2 : 200 < maxLen - consumed
      · have htr := trimLastSpace_take_le d.content (maxLen - consumed)
        simp only [packParts, if_neg h1, if_pos h2, chargedChars, mkSourceInfo, cond_true,
          List.length_append, ellipsis]
        simp only [List.length_cons, List.length_nil]
        omega
      · simp only [packParts, if_neg h1, if_neg h2, chargedChars]
        omega

lemma packParts_sumLens_le :
    ∀ (docs : List RetrievedChunk) (maxLen consumed : Nat), consumed ≤ maxLen →
      consumed + sumLens (packParts docs maxLen consumed).1 ≤ maxLen + 3 := by
  intro docs
  induction docs with
  | nil =>
    intro maxLen consumed h
    simp only [packParts, sumLens, List.map_nil, List.sum_nil]
    omega
  | cons d rest ih =>
    intro maxLen consumed h
    by_cases h1 : consumed + d.content.length ≤ maxLen
    · have := ih maxLen (consumed + d.content.length) h1
      simp only [packParts, if_pos h1, sumLens, List.map_cons, List.sum_cons] at *
      omega
    · by_cases h2 : 200 < maxLen - consumed
      · have htr := trimLastSpace_take_le d.content (maxLen - consumed)
        simp only [packParts, if_neg h1, if_pos h2, sumLens, List.map_cons, List.sum_cons,
          List.map_nil, List.sum_nil, List.length_append, ellipsis]
        simp only [List.length_cons, List.length_nil]
        omega
      · simp only [packParts, if_neg h1, if_neg h2, sumLens, List.map_nil, List.sum_nil]
        omega

lemma joinParts_length_le :
    ∀ ps : List (List Char), (joinParts ps).length ≤ sumLens ps + 7 * (ps.length - 1) := by
  intro ps
  induction ps with
  | nil => simp [joinParts, sumLens]
  | cons p ps ih =>
    cases ps with
    | nil => simp [joinParts, sumLens]
    | cons q t =>
      simp only [joinParts, List.length_append, sumLens, List.map_cons, List.sum_cons,
        List.length_cons, contextSeparator] at *
      simp only [List.length_cons, List.length_nil] at *
      omega

/-! ### Concrete retrieval inputs used in the worked examples -/

def mkPlainChunk (content : List Char) : RetrievedChunk :=
  ⟨content, none, none, 0⟩

/-- A 1000-character chunk with a space every tenth character. -/
def chunk1000 : RetrievedChunk :=
  mkPlainChunk ((List.replicate 100 (("abcdefghi ").toList)).flatten)

/-- A 261-character chunk whose only whitespace is a newline: its first
201 characters contain a newline but no space. -/
def chunkNoSpace : RetrievedChunk :=
  mkPlainChunk (List.replicate 10 'a' ++ '\n' :: List.replicate 250 'b')

def chunkX100 : RetrievedChunk := mkPlainChunk (List.replicate 100 'x')

def chunkY100 : RetrievedChunk := mkPlainChunk (List.replicate 100 'y')

def chunkZ50 : RetrievedChunk := mkPlainChunk (List.replicate 50 'z')

set_option maxRecDepth 200000

/-- C1 counterexample: the query packing does not trim the partial chunk
back to the last whitespace boundary.  On a chunk whose truncated prefix
contains a newline but no space, the code keeps the whole prefix (it only
splits on the space character), while the stated algorithm trims back to
the newline, so the code disagrees with the algorithm as claimed. -/
theorem c1_counterexample :
    packParts [chunkNoSpace] 201 0 ≠ packAlg trimLastWhitespace [chunkNoSpace] 201 := by
  decide

/-- C1 (amended): the query packing follows the stated algorithm with the
trim taken at the last space character (no trim when the prefix has no
space) rather than at the last whitespace character: chunks that fit whole
are appended with non-partial source entries; the first chunk that does
not fit is truncated to the remaining budget, back-trimmed to the last
space, suffixed with the ellipsis and recorded with a truncated source
entry only when more than 200 characters remain, and iteration stops
there; the trimmed text is a prefix of the chunk cut at a space and fits
the remaining budget; for one chunk of length 1000 and budget 300 the
output is the chunk truncated to at most 300 characters at a space
boundary plus the ellipsis with a truncated source entry, and for chunks
of lengths 100, 100, 50 with budget 180 only the first chunk and one
source entry are produced. -/
theorem c1_amended_packing :
    (∀ (docs : List RetrievedChunk) (maxLen : Nat),
      packParts docs maxLen 0 = packAlg trimLastSpace docs maxLen)
    ∧ (∀ s : List Char, ∃ t, trimLastSpace s ++ t = s ∧ (t = [] ∨ ∃ u, t = ' ' :: u))
    ∧ (∀ (s : List Char) (n : Nat), (trimLastSpace (s.take n)).length ≤ n)
    ∧ packParts [chunk1000] 300 0
        = ([trimLastSpace (chunk1000.content.take 300) ++ ellipsis],
            [mkSourceInfo chunk1000 true])
    ∧ (trimLastSpace (chunk1000.content.take 300)).length ≤ 300
    ∧ packParts [chunkX100, chunkY100, chunkZ50] 180 0
        = ([chunkX100.content], [mkSourceInfo chunkX100 false]) := by
  refine ⟨?_, trimLastSpace_decomp, trimLastSpace_take_le, by decide, ?_, by decide⟩
  · intro docs maxLen
    rw [packParts_eq_with, packAlg_eq]
  · exact trimLastSpace_take_le chunk1000.content 300

/-- C5: the streaming path does not pack context identically to the
synchronous path.  On one 1000-character chunk with spaces and budget 300,
the synchronous query back-trims the 300-character prefix to the last
space before appending the ellipsis, while stream_query appends the
ellipsis to the raw prefix, so the two context strings differ. -/
theorem c5_stream_packing_divergence :
    packContext [chunk1000] 300 = trimLastSpace (chunk1000.content.take 300) ++ ellipsis
    ∧ streamContext [chunk1000] 300 = chunk1000.content.take 300 ++ ellipsis
    ∧ streamContext [chunk1000] 300 ≠ packContext [chunk1000] 300 := by
  refine ⟨by decide, by decide, by decide⟩

/-- C9: only chunk-content characters are charged against the budget: the
content characters of the emitted parts (ellipsis excluded) total at most
max_length, while the joined context string can exceed max_length, by at
most 9 characters per separator plus 3 for the ellipsis; two 100-character
chunks under a budget of 200 give a 207-character context. -/
theorem c9_budget_accounting :
    (∀ (docs : List RetrievedChunk) (maxLen : Nat),
      chargedChars (packParts docs maxLen 0).1 (packParts docs maxLen 0).2 ≤ maxLen)
    ∧ (∀ (docs : List RetrievedChunk) (maxLen : Nat),
      (packContext docs maxLen).length
        ≤ maxLen + 9 * ((packParts docs maxLen 0).1.length - 1) + 3)
    ∧ 200 < (packContext [chunkX100, chunkY100] 200).length := by
  refine ⟨?_, ?_, by decide⟩
  · intro docs maxLen
    have := packParts_charged_le docs maxLen 0 (Nat.zero_le _)
    omega
  · intro docs maxLen
    have h1 := packParts_sumLens_le docs maxLen 0 (Nat.zero_le _)
    have h2 := joinParts_length_le (packParts docs maxLen 0).1
    simp only [packContext]
    omega

/-! ## Streaming response protocol (pipeline.py, stream_query) -/

inductive StreamStatus where
  | no_context : StreamStatus
  | streaming_started : StreamStatus
  | streaming : StreamStatus
  | completed : StreamStatus
  | failed : StreamStatus
  deriving DecidableEq

/-- One yielded frame: the chunk text plus the metadata fields stream_query
ever sets (a field is none when the corresponding metadata key is absent).
Every frame also carries the level string. -/
structure StreamFrame where
  chunk : List Char
  level : List Char
  source_documents : Option Nat
  context_length : Option Nat
  chunk_number : Option Nat
  total_chunks : Option Nat
  status : StreamStatus
  deriving DecidableEq

/-- The fixed no-context message of stream_query (the apostrophe is
spelled via its code point). -/
def noContextMsg : List Char :=
  ("I couldn").toList ++ Char.ofNat 39 :: ("t find any relevant information to answer your question.").toList

def mkStreamingFrame (level frag : List Char) (n : Nat) : StreamFrame :=
  ⟨frag, level, none, none, some n, none, StreamStatus.streaming⟩

/-- The per-fragment loop of stream_query: the counter is incremented
before each yield, so fragments carry chunk numbers count+1, count+2, …. -/
def fragFrames (level : List Char) : Nat → List (List Char) → List StreamFrame
  | _, [] => []
  | count, f :: fs => mkStreamingFrame level f (count + 1) :: fragFrames level (count + 1) fs

/-- The frame sequence stream_query yields on its non-exception path,
given the retrieved chunks and the finite fragment sequence produced by
the generation collaborator: the no-context frame when retrieval is empty;
otherwise the streaming_started frame (empty chunk, after context
assembly), one streaming frame per fragment, and the completed frame with
the total fragment count. -/
def streamFrames (level : List Char) (docs : List RetrievedChunk) (maxLen : Nat)
    (fragments : List (List Char)) : List StreamFrame :=
  if docs.isEmpty then
    [⟨noContextMsg, level, some 0, none, none, none, StreamStatus.no_context⟩]
  else
    ⟨[], level, some docs.length, some (streamContext docs maxLen).length, none, none,
        StreamStatus.streaming_started⟩
      :: (fragFrames level 0 fragments
        ++ [⟨[], level, none, none, none, some fragments.length, StreamStatus.completed⟩])

lemma fragFrames_eq (level : List Char) :
    ∀ (fs : List (List Char)) (c : Nat),
      fragFrames level c fs
        = ((List.range fs.length).zip fs).map (fun p => mkStreamingFrame level p.2 (c + p.1 + 1)) := by
  intro fs
  induction fs with
  | nil => intro c; rfl
  | cons f fs ih =>
    intro c
    rw [fragFrames, ih (c + 1)]
    rw [List.length_cons, List.range_succ_eq_map, List.zip_cons_cons, List.map_cons,
      List.zip_map_left, List.map_map]
    congr 1
    apply List.map_congr_left
    intro p hp
    have harith : c + 1 + p.1 + 1 = c + (p.1 + 1) + 1 := by omega
    simp [mkStreamingFrame, Prod.map, harith]

/-- C6: on a query with non-empty retrieval, stream_query emits exactly
one streaming_started frame (empty chunk, carrying the source count and
context length), then one streaming frame per generation fragment in
order with chunk numbers running 1..n, then one completed frame carrying
total_chunks = n. -/
theorem c6_stream_frames (level : List Char) (docs : List RetrievedChunk) (maxLen : Nat)
    (frags : List (List Char)) (h : docs ≠ []) :
    streamFrames level docs maxLen frags
      = ⟨[], level, some docs.length, some (streamContext docs maxLen).length, none, none,
          StreamStatus.streaming_started⟩
        :: (((List.range frags.length).zip frags).map
              (fun p => mkStreamingFrame level p.2 (p.1 + 1))
          ++ [⟨[], level, none, none, none, some frags.length, StreamStatus.completed⟩]) := by
  cases docs with
  | nil => cases h rfl
  | cons d ds => simp [streamFrames, fragFrames_eq]

/-- C6 witness: fragments "Hello", " world" produce streaming_started,
streaming(chunk_number=1), streaming(chunk_number=2), completed(2). -/
theorem c6_witness :
    streamFrames (("eli5").toList) [chunkX100] 3000 [("Hello").toList, (" world").toList]
      = [⟨[], ("eli5").toList, some 1, some 100, none, none, StreamStatus.streaming_started⟩,
         ⟨("Hello").toList, ("eli5").toList, none, none, some 1, none, StreamStatus.streaming⟩,
         ⟨(" world").toList, ("eli5").toList, none, none, some 2, none, StreamStatus.streaming⟩,
         ⟨[], ("eli5").toList, none, none, none, some 2, StreamStatus.completed⟩] :=
  (c6_stream_frames (("eli5").toList) [chunkX100] 3000
      [("Hello").toList, (" world").toList] (by decide)).trans (by decide)

/-! ## Cache Layer (cache.py, CacheManager, in-process backend)

The in-process fallback store is a Python dict from key strings to
entries holding the cached value and its expiry time.  It is modelled as
an association list with at most one binding per key (dict semantics);
`datetime.now()` is the integer parameter `now` and TTLs are integer
seconds. -/

structure MemEntry (α : Type) where
  value : α
  expires : Int
  deriving DecidableEq

abbrev MemStore (α : Type) := List (List Char × MemEntry α)

def lookupKV {α : Type} (key : List Char) : MemStore α → Option (MemEntry α)
  | [] => none
  | (k, e) :: rest => if k = key then some e else lookupKV key rest

def eraseKV {α : Type} (key : List Char) : MemStore α → MemStore α
  | [] => []
  | (k, e) :: rest => if k = key then rest else (k, e) :: eraseKV key rest

/-- Python dict assignment: replace the binding in place, else append. -/
def setKV {α : Type} (key : List Char) (e : MemEntry α) : MemStore α → MemStore α
  | [] => [(key, e)]
  | (k, v) :: rest => if k = key then (key, e) :: rest else (k, v) :: setKV key e rest

/-- CacheManager.get, in-process branch: a present entry is served while
expires > now; an expired entry is deleted on this access and the get is
a miss.  Returns the value (or miss) and the post-access store. -/
def memGet {α : Type} (now : Int) (key : List Char) (s : MemStore α) :
    Option α × MemStore α :=
  match lookupKV key s with
  | none => (none, s)
  | some e => if now < e.expires then (some e.value, s) else (none, eraseKV key s)

/-- _cleanup_memory_cache: drop entries with expires ≤ now. -/
def cleanupMem {α : Type} (now : Int) (s : MemStore α) : MemStore α :=
  s.filter (fun kv => now < kv.2.expires)

/-- The configured default TTL (core/config.py CACHE_TTL). -/
def CACHE_TTL : Int := 3600

/-- CacheManager.set, in-process branch: store the value with
expires = now + ttl (ttl defaulting to the configured value); when the
store size after insertion is a multiple of 100, the expired-entry sweep
runs. -/
def memSet {α : Type} (defaultTTL now : Int) (key : List Char) (v : α)
    (ttl : Option Int) (s : MemStore α) : MemStore α :=
  let t := ttl.getD defaultTTL
  let s1 := setKV key ⟨v, now + t⟩ s
  if s1.length % 100 = 0 then cleanupMem now s1 else s1

def startsWithChars : List Char → List Char → Bool
  | [], _ => true
  | _ :: _, [] => false
  | a :: as, b :: bs => a = b && startsWithChars as bs

/-- Python `needle in hay` on strings: contiguous substring. -/
def occursIn (needle hay : List Char) : Bool :=
  hay.tails.any (fun t => startsWithChars needle t)

/-- CacheManager.clear_pattern, in-process branch: delete every key that
contains the pattern with all asterisks removed as a substring, counting
one per deleted key; returns (count, post store). -/
def clearPattern {α : Type} (pattern : List Char) (s : MemStore α) : Nat × MemStore α :=
  let needle := pattern.filter (fun c => c ≠ '*')
  ((s.filter (fun kv => occursIn needle kv.1)).length,
   s.filter (fun kv => !occursIn needle kv.1))

/-- Glob matching with `*` wildcards: `*` matches any substring, any other
character matches itself literally and in order. -/
def globMatch : List Char → List Char → Bool
  | [], s => s.isEmpty
  | c :: p, s =>
    if c = '*' then s.tails.any (fun t => globMatch p t)
    else
      match s with
      | [] => false
      | d :: s1 => c = d && globMatch p s1


/-! ### Association-list facts for the in-process store -/

def keysOf {α : Type} (s : MemStore α) : List (List Char) := s.map Prod.fst

lemma length_filter_partition {α : Type} (p : α → Bool) :
    ∀ l : List α, (l.filter p).length + (l.filter (fun x => !p x)).length = l.length := by
  intro l
  induction l with
  | nil => rfl
  | cons a l ih =>
    rw [List.filter_cons, List.filter_cons]
    by_cases hp : p a
    · simp only [hp, Bool.not_true, if_pos, List.length_cons]
      simp
      omega
    · simp only [Bool.not_eq_true] at hp
      simp only [hp, Bool.not_false, List.length_cons]
      simp
      omega

lemma lookup_setKV_self {α : Type} (key : List Char) (e : MemEntry α) :
    ∀ s : MemStore α, lookupKV key (setKV key e s) = some e := by
  intro s
  induction s with
  | nil => simp [setKV, lookupKV]
  | cons kv rest ih =>
    obtain ⟨k, v⟩ := kv
    by_cases hk : k = key
    · simp [setKV, hk, lookupKV]
    · simp [setKV, hk, lookupKV, ih]

lemma lookup_filter_first {α : Type} (key : List Char) (e : MemEntry α)
    (p : List Char × MemEntry α → Bool) :
    ∀ s : MemStore α, lookupKV key s = some e → p (key, e) = true →
      lookupKV key (s.filter p) = some e := by
  intro s
  induction s with
  | nil => intro h _; simp [lookupKV] at h
  | cons kv rest ih =>
    obtain ⟨k, v⟩ := kv
    intro h hp
    by_cases hk : k = key
    · subst hk
      rw [lookupKV, if_pos rfl] at h
      injection h with hv
      subst hv
      rw [List.filter_cons, if_pos (by simpa using hp)]
      simp [lookupKV]
    · rw [lookupKV, if_neg hk] at h
      rw [List.filter_cons]
      by_cases hq : p (k, v) = true
      · rw [if_pos (by simpa using hq), lookupKV, if_neg hk]
        exact ih h hp
      · rw [if_neg (by simpa using hq)]
        exact ih h hp

lemma lookup_eq_none_of_not_mem {α : Type} (key : List Char) :
    ∀ s : MemStore α, key ∉ keysOf s → lookupKV key s = none := by
  intro s
  induction s with
  | nil => intro _; rfl
  | cons kv rest ih =>
    obtain ⟨k, v⟩ := kv
    intro h
    have hkeys : keysOf ((k, v) :: rest) = k :: keysOf rest := rfl
    rw [hkeys, List.mem_cons] at h
    push_neg at h
    rw [lookupKV, if_neg (fun hk : k = key => h.1 hk.symm)]
    exact ih h.2

lemma lookup_erase_self {α : Type} (key : List Char) :
    ∀ s : MemStore α, (keysOf s).Nodup → lookupKV key (eraseKV key s) = none := by
  intro s
  induction s with
  | nil => intro _; rfl
  | cons kv rest ih =>
    obtain ⟨k, v⟩ := kv
    intro hnd
    simp only [keysOf, List.map_cons, List.nodup_cons] at hnd
    by_cases hk : k = key
    · subst hk
      rw [eraseKV, if_pos rfl]
      exact lookup_eq_none_of_not_mem k rest hnd.1
    · rw [eraseKV, if_neg hk, lookupKV, if_neg hk]
      exact ih hnd.2

lemma keys_setKV {α : Type} (key : List Char) (e : MemEntry α) :
    ∀ s : MemStore α,
      keysOf (setKV key e s) = if key ∈ keysOf s then keysOf s else keysOf s ++ [key] := by
  intro s
  induction s with
  | nil => simp [setKV, keysOf]
  | cons kv rest ih =>
    obtain ⟨k, v⟩ := kv
    by_cases hk : k = key
    · subst hk
      simp only [setKV, if_true]
      have hmem : k ∈ keysOf ((k, v) :: rest) := by
        show k ∈ k :: keysOf rest
        exact List.mem_cons_self k (keysOf rest)
      rw [if_pos hmem]
      rfl
    · simp only [setKV]
      rw [if_neg hk]
      have hkeys : keysOf ((k, v) :: setKV key e rest) = k :: keysOf (setKV key e rest) := rfl
      have hkeys2 : keysOf ((k, v) :: rest) = k :: keysOf rest := rfl
      rw [hkeys, ih, hkeys2]
      have hne : ¬ (key = k) := fun hkk => hk hkk.symm
      by_cases hmem : key ∈ keysOf rest
      · rw [if_pos hmem, if_pos (by rw [List.mem_cons]; exact Or.inr hmem)]
      · rw [if_neg hmem, if_neg (by rw [List.mem_cons]; push_neg; exact ⟨hne, hmem⟩)]
        rfl

lemma nodup_keys_setKV {α : Type} (key : List Char) (e : MemEntry α) (s : MemStore α)
    (h : (keysOf s).Nodup) : (keysOf (setKV key e s)).Nodup := by
  rw [keys_setKV]
  by_cases hmem : key ∈ keysOf s
  · rw [if_pos hmem]; exact h
  · rw [if_neg hmem]
    refine List.Nodup.append h (List.nodup_singleton key) ?_
    intro x hx hx1
    rcases List.mem_singleton.mp hx1 with rfl
    exact hmem hx

lemma nodup_keys_filter {α : Type} (p : List Char × MemEntry α → Bool) (s : MemStore α)
    (h : (keysOf s).Nodup) : (keysOf (s.filter p)).Nodup := by
  refine h.sublist ?_
  exact (List.filter_sublist s).map Prod.fst

lemma lookup_memSet_self {α : Type} (dttl now : Int) (key : List Char) (v : α) (ttl : Int)
    (httl : 0 < ttl) (s : MemStore α) :
    lookupKV key (memSet dttl now key v (some ttl) s) = some ⟨v, now + ttl⟩ := by
  unfold memSet
  simp only [Option.getD_some]
  by_cases hlen : (setKV key ⟨v, now + ttl⟩ s).length % 100 = 0
  · rw [if_pos hlen]
    unfold cleanupMem
    apply lookup_filter_first key _ _ _ (lookup_setKV_self key _ s)
    simp
    omega
  · rw [if_neg hlen]
    exact lookup_setKV_self key _ s

lemma nodup_keys_memSet {α : Type} (dttl now : Int) (key : List Char) (v : α)
    (ttl : Option Int) (s : MemStore α) (h : (keysOf s).Nodup) :
    (keysOf (memSet dttl now key v ttl s)).Nodup := by
  unfold memSet
  by_cases hlen : (setKV key ⟨v, now + ttl.getD dttl⟩ s).length % 100 = 0
  · rw [if_pos hlen]
    exact nodup_keys_filter _ _ (nodup_keys_setKV key _ s h)
  · rw [if_neg hlen]
    exact nodup_keys_setKV key _ s h

/-! ### Glob facts -/

lemma tails_any_isEmpty : ∀ t : List Char, t.tails.any (fun u => u.isEmpty) = true := by
  intro t
  induction t with
  | nil => rfl
  | cons a t ih =>
    rw [List.tails_cons]
    simp [ih]

lemma globMatch_append_star :
    ∀ (s t : List Char), (∀ c ∈ s, c ≠ '*') →
      globMatch (s ++ ['*']) t = startsWithChars s t := by
  intro s
  induction s with
  | nil =>
    intro t _
    show globMatch ['*'] t = startsWithChars [] t
    simp only [globMatch, if_pos rfl, startsWithChars]
    exact tails_any_isEmpty t
  | cons c s ih =>
    intro t hs
    have hc : c ≠ '*' := hs c (List.mem_cons_self c s)
    cases t with
    | nil =>
      show globMatch (c :: (s ++ ['*'])) [] = startsWithChars (c :: s) []
      simp only [globMatch, if_neg hc, startsWithChars]
    | cons d t1 =>
      show globMatch (c :: (s ++ ['*'])) (d :: t1) = startsWithChars (c :: s) (d :: t1)
      simp only [globMatch, if_neg hc, startsWithChars]
      rw [ih t1 (fun x hx => hs x (List.mem_cons_of_mem c hx))]

lemma globMatch_star_wrap (s key : List Char) (hs : ∀ c ∈ s, c ≠ '*') :
    globMatch ('*' :: (s ++ ['*'])) key = occursIn s key := by
  have hpt : ∀ t : List Char, globMatch (s ++ ['*']) t = startsWithChars s t :=
    fun t => globMatch_append_star s t hs
  show globMatch ('*' :: (s ++ ['*'])) key = occursIn s key
  simp only [globMatch, if_pos rfl, hpt]
  rfl


/-- Concrete stores used in the cache examples. -/
def storeDocs : MemStore Nat :=
  [((("document:doc1:processing").toList), ⟨0, 1000⟩),
   ((("document:doc1:meta").toList), ⟨1, 1000⟩),
   ((("document:doc2:processing").toList), ⟨2, 1000⟩)]

/-- C4 counterexample: clear_pattern on the in-process backend matches by
substring of the pattern with its asterisks removed, not by glob
semantics: the pattern a*b deletes the key "ab x" (which contains "ab")
even though the glob a*b does not match it. -/
theorem c4_counterexample :
    clearPattern (("a*b").toList) ([((("ab x").toList), ⟨0, 1000⟩)] : MemStore Nat) = (1, [])
    ∧ globMatch (("a*b").toList) (("ab x").toList) = false := by
  exact ⟨by decide, by decide⟩

/-- C4 (amended): on the in-process backend, clear_pattern removes exactly
the keys containing the pattern stripped of all its asterisks as a
contiguous substring, and the returned count equals the number of keys
removed.  For patterns of the shape *s* with s free of asterisks this
coincides with glob semantics, so the worked example stands: after caching
document:doc1:processing, document:doc1:meta and document:doc2:processing,
clearing *doc1* removes exactly the two doc1 keys and returns 2. -/
theorem c4_amended_clear_pattern :
    (∀ (α : Type) (pattern : List Char) (s : MemStore α),
        (clearPattern pattern s).1 + (clearPattern pattern s).2.length = s.length
        ∧ ∀ kv, kv ∈ (clearPattern pattern s).2
            ↔ (kv ∈ s ∧ occursIn (pattern.filter (fun c => c ≠ '*')) kv.1 = false))
    ∧ (∀ (s key : List Char), (∀ c ∈ s, c ≠ '*') →
        globMatch ('*' :: (s ++ ['*'])) key = occursIn s key)
    ∧ clearPattern (("*doc1*").toList) storeDocs
        = (2, [((("document:doc2:processing").toList), ⟨(2 : Nat), 1000⟩)])
    ∧ globMatch (("*doc1*").toList) (("document:doc1:processing").toList) = true
    ∧ globMatch (("*doc1*").toList) (("document:doc1:meta").toList) = true
    ∧ globMatch (("*doc1*").toList) (("document:doc2:processing").toList) = false := by
  refine ⟨?_, globMatch_star_wrap, by decide, by decide, by decide, by decide⟩
  intro α pattern s
  constructor
  · exact length_filter_partition _ s
  · intro kv
    rw [show (clearPattern pattern s).2
        = s.filter (fun kv => !occursIn (pattern.filter (fun c => c ≠ '*')) kv.1) from rfl]
    rw [List.mem_filter]
    simp

/-- C4 witness: the star-wrap glob equivalence applied to the doc1 needle
and a doc1 key. -/
theorem c4_witness :
    (∀ c ∈ ("doc1").toList, c ≠ '*')
    ∧ globMatch ('*' :: ((("doc1").toList) ++ ['*'])) (("document:doc1:meta").toList)
        = occursIn (("doc1").toList) (("document:doc1:meta").toList) :=
  ⟨by decide,
   c4_amended_clear_pattern.2.1 (("doc1").toList) (("document:doc1:meta").toList) (by decide)⟩

/-- C8 counterexample: with ttl = 0 the entry expires immediately
(expires = now), so set followed by get at the same instant is a miss and
the entry is deleted, contradicting the round-trip for every ttl. -/
theorem c8_counterexample :
    memGet 0 (("k").toList) (memSet CACHE_TTL 0 (("k").toList) (0 : Nat) (some 0) [])
      = (none, []) := by
  decide

/-- C8 (amended, positive ttl): set(key, v, ttl) immediately followed by
get(key) returns v; once more than ttl seconds elapsed the get is a miss
and the entry is gone from the store after that access (store keys are
unique, as in a dict); and an unspecified ttl means the configured
default TTL. -/
theorem c8_amended_ttl_roundtrip :
    (∀ (α : Type) (dttl now : Int) (key : List Char) (v : α) (ttl : Int) (s : MemStore α),
        0 < ttl →
        (memGet now key (memSet dttl now key v (some ttl) s)).1 = some v)
    ∧ (∀ (α : Type) (dttl now now2 : Int) (key : List Char) (v : α) (ttl : Int)
          (s : MemStore α),
        0 < ttl → now + ttl < now2 → (keysOf s).Nodup →
        (memGet now2 key (memSet dttl now key v (some ttl) s)).1 = none
        ∧ lookupKV key (memGet now2 key (memSet dttl now key v (some ttl) s)).2 = none)
    ∧ (∀ (α : Type) (dttl now : Int) (key : List Char) (v : α) (s : MemStore α),
        memSet dttl now key v none s = memSet dttl now key v (some dttl) s) := by
  refine ⟨?_, ?_, ?_⟩
  · intro α dttl now key v ttl s httl
    have hl := lookup_memSet_self dttl now key v ttl httl s
    unfold memGet
    rw [hl]
    dsimp only
    rw [if_pos (by show now < now + ttl; omega)]
  · intro α dttl now now2 key v ttl s httl hgone hnd
    have hl := lookup_memSet_self dttl now key v ttl httl s
    have hnd2 : (keysOf (memSet dttl now key v (some ttl) s)).Nodup :=
      nodup_keys_memSet dttl now key v (some ttl) s hnd
    constructor
    · unfold memGet
      rw [hl]
      dsimp only
      rw [if_neg (by show ¬ (now2 < now + ttl); omega)]
    · unfold memGet
      rw [hl]
      dsimp only
      rw [if_neg (by show ¬ (now2 < now + ttl); omega)]
      exact lookup_erase_self key _ hnd2
  · intro α dttl now key v s
    rfl

/-- C8 witness: set at time 0 with ttl 10 round-trips at time 0 and
misses at time 11. -/
theorem c8_witness :
    (0 : Int) < 10
    ∧ (memGet 0 (("k").toList) (memSet CACHE_TTL 0 (("k").toList) (7 : Nat) (some 10) [])).1
        = some 7
    ∧ (memGet 11 (("k").toList) (memSet CACHE_TTL 0 (("k").toList) (7 : Nat) (some 10) [])).1
        = none :=
  ⟨by decide,
   c8_amended_ttl_roundtrip.1 Nat CACHE_TTL 0 (("k").toList) 7 10 [] (by decide),
   (c8_amended_ttl_roundtrip.2.1 Nat CACHE_TTL 0 11 (("k").toList) 7 10 [] (by decide)
      (by decide) (by simp [keysOf])).1⟩


/-! ## QueryResult and the cached flag (pipeline.py, query steps 2, 7, 8)

The result dict assembled in step 7, with query_metadata flattened into
the fields the code sets from its inputs; the wall-clock processing_time
string is not modelled (no claim depends on it). -/

structure QueryResult where
  answer : List Char
  level : List Char
  source_documents : Nat
  context_used : List Char
  cached : Bool
  sources : List SourceInfo
  question_length : Nat
  context_length : Nat
  response_length : Nat
  deriving DecidableEq

/-- Step 7: the freshly computed result: cached is false and the context
preview is truncated at 500 characters. -/
def mkQueryResult (answer level question context : List Char) (numDocs : Nat)
    (sources : List SourceInfo) : QueryResult :=
  { answer := answer, level := level, source_documents := numDocs,
    context_used := if context.length < 500 then context else context.take 500 ++ ellipsis,
    cached := false, sources := sources,
    question_length := question.length, context_length := context.length,
    response_length := answer.length }

/-- In-place value update of the first binding of a key, keeping its
expiry. -/
def setValueKV {α : Type} (key : List Char) (v : α) : MemStore α → MemStore α
  | [] => []
  | (k, e) :: rest =>
    if k = key then (k, ⟨v, e.expires⟩) :: rest else (k, e) :: setValueKV key v rest

/-- Step 2 of query on the in-process backend: the cache-hit read path.
CacheManager.get returns the stored dict object itself, and query then
sets the hit-marking key to True on that very object, so the store entry
is mutated too; the returned store reflects this reference semantics by
writing the mutated value back in place. -/
def queryCacheHit (now : Int) (key : List Char) (s : MemStore QueryResult) :
    Option QueryResult × MemStore QueryResult :=
  match memGet now key s with
  | (none, s1) => (none, s1)
  | (some r, s1) =>
    (some { r with cached := true }, setValueKV key { r with cached := true } s1)

/-- Steps 3-8 on a miss: the store after writing the fresh result with the
default TTL. -/
def queryMissStore (dttl now : Int) (key : List Char) (r : QueryResult)
    (s : MemStore QueryResult) : MemStore QueryResult :=
  memSet dttl now key r none s

lemma lookup_setValueKV {α : Type} (key : List Char) (v : α) :
    ∀ s : MemStore α,
      lookupKV key (setValueKV key v s)
        = Option.map (fun e => ⟨v, e.expires⟩) (lookupKV key s) := by
  intro s
  induction s with
  | nil => rfl
  | cons kv rest ih =>
    obtain ⟨k, e⟩ := kv
    by_cases hk : k = key
    · simp [setValueKV, hk, lookupKV]
    · simp [setValueKV, hk, lookupKV, ih]

def hitKey : List Char := ("explanation:q:eli5:h").toList

def freshSample : QueryResult :=
  mkQueryResult (("ans").toList) (("eli5").toList) (("q").toList) (("ctx").toList) 1 []

def storeHit : MemStore QueryResult := [(hitKey, ⟨freshSample, 1000⟩)]

/-- C7 counterexample: in the in-process backend the stored entry and the
served dict are the same object, so serving a cache hit flips the stored
entry's cached flag to true; the entry remaining in the cache after a hit
does not still hold cached=false. -/
theorem c7_counterexample :
    Option.map (fun e => e.value.cached) (lookupKV hitKey storeHit) = some false
    ∧ Option.map (fun e => e.value.cached)
        (lookupKV hitKey (queryCacheHit 0 hitKey storeHit).2) = some true := by
  exact ⟨by decide, by decide⟩

/-- C7 (amended): a freshly computed QueryResult always has cached=false,
and the miss path writes it to the cache with cached=false; the hit path
serves the stored value with cached overwritten to true; but in the
in-process backend the served object is the stored object, so after a
served hit the entry remaining in the cache holds cached=true (a later
hit still correctly returns cached=true). -/
theorem c7_amended_cached_flag :
    (∀ (answer level question context : List Char) (n : Nat) (srcs : List SourceInfo),
        (mkQueryResult answer level question context n srcs).cached = false)
    ∧ (∀ (dttl now : Int) (key answer level question context : List Char) (n : Nat)
          (srcs : List SourceInfo) (s : MemStore QueryResult),
        0 < dttl →
        Option.map (fun e => e.value.cached)
            (lookupKV key
              (queryMissStore dttl now key
                (mkQueryResult answer level question context n srcs) s))
          = some false)
    ∧ (∀ (now : Int) (key : List Char) (s : MemStore QueryResult),
        (queryCacheHit now key s).1
          = Option.map (fun r => { r with cached := true }) (memGet now key s).1)
    ∧ (∀ (now : Int) (key : List Char) (s : MemStore QueryResult) (r : QueryResult),
        (memGet now key s).1 = some r →
        Option.map (fun e => e.value.cached)
            (lookupKV key (queryCacheHit now key s).2) = some true) := by
  refine ⟨?_, ?_, ?_, ?_⟩
  · intro answer level question context n srcs
    rfl
  · intro dttl now key answer level question context n srcs s hpos
    have h1 : queryMissStore dttl now key
        (mkQueryResult answer level question context n srcs) s
        = memSet dttl now key (mkQueryResult answer level question context n srcs)
            (some dttl) s := rfl
    rw [h1, lookup_memSet_self dttl now key _ dttl hpos s]
    rfl
  · intro now key s
    rcases hm : memGet now key s with ⟨o, s1⟩
    cases o with
    | none => simp [queryCacheHit, hm]
    | some r => simp [queryCacheHit, hm]
  · intro now key s r hr
    unfold memGet at hr
    rcases hc : lookupKV key s with _ | e
    · rw [hc] at hr
      simp at hr
    · rw [hc] at hr
      dsimp only at hr
      by_cases hexp : now < e.expires
      · have hstore : (queryCacheHit now key s).2
            = setValueKV key { e.value with cached := true } s := by
          unfold queryCacheHit memGet
          rw [hc]
          dsimp only
          rw [if_pos hexp]
        rw [hstore, lookup_setValueKV key _ s, hc]
        rfl
      · rw [if_neg hexp] at hr
        simp at hr

/-- C7 witness: serving a hit on a stored fresh result returns cached=true
and leaves the stored entry with cached=true; the miss path stores
cached=false. -/
theorem c7_witness :
    ((memGet 0 hitKey storeHit).1 = some freshSample
      → Option.map (fun e => e.value.cached)
          (lookupKV hitKey (queryCacheHit 0 hitKey storeHit).2) = some true)
    ∧ (memGet 0 hitKey storeHit).1 = some freshSample
    ∧ Option.map (fun e => e.value.cached)
        (lookupKV hitKey
          (queryMissStore CACHE_TTL 0 hitKey freshSample [])) = some false :=
  ⟨c7_amended_cached_flag.2.2.2 0 hitKey storeHit freshSample,
   by decide,
   c7_amended_cached_flag.2.1 CACHE_TTL 0 hitKey (("ans").toList) (("eli5").toList)
     (("q").toList) (("ctx").toList) 1 [] [] (by decide)⟩


/-! ## Admission Controller (middleware.py, RateLimitMiddleware)

The per-client state mutated by dispatch on a non-health request, and the
decision it returns.  Timestamps are integers (seconds); `requests` is the
per-IP deque, oldest first; `inflight` is the per-IP concurrent-request
counter. -/

structure ClientState where
  requests : List Int
  inflight : Nat
  deriving DecidableEq

inductive Decision where
  | admitted : Decision
  | rejected : List Char → Nat → Decision
  deriving DecidableEq

def rateLimitTag : List Char := ("rate_limit_exceeded").toList

def concurrentTag : List Char := ("too_many_concurrent_requests").toList

/-- _clean_old_requests: pop timestamps strictly older than one minute
from the front of the deque. -/
def cleanRequests (t : Int) (l : List Int) : List Int :=
  l.dropWhile (fun ts => ts < t - 60)

/-- The admission decision of dispatch at time `t` with per-minute limit
`N` and concurrency limit `K`: clean the window, reject on rate with
retry_after 60, else reject on concurrency with retry_after 10, else
append the timestamp and increment the in-flight counter. -/
def dispatchCheck (N K : Nat) (t : Int) (st : ClientState) : Decision × ClientState :=
  let reqs := cleanRequests t st.requests
  if N ≤ reqs.length then
    (Decision.rejected rateLimitTag 60, { requests := reqs, inflight := st.inflight })
  else if K ≤ st.inflight then
    (Decision.rejected concurrentTag 10, { requests := reqs, inflight := st.inflight })
  else
    (Decision.admitted, { requests := reqs ++ [t], inflight := st.inflight + 1 })

/-- The finally clause around call_next: decrement the in-flight counter. -/
def finishRequest (st : ClientState) : ClientState :=
  { st with inflight := st.inflight - 1 }

/-- The try/finally body for an admitted request: the downstream outcome
(normal return or raised exception) is propagated unchanged and the
in-flight counter is decremented on both paths. -/
def runAdmitted (ε ρ : Type) (st : ClientState) (outcome : Except ε ρ) :
    Except ε ρ × ClientState :=
  (outcome, finishRequest st)

/-- Sequential request trace from one client: each admitted request
completes (and releases its slot) before the next request arrives. -/
def runSeq (N K : Nat) (st : ClientState) : List Int → List Decision × ClientState
  | [] => ([], st)
  | t :: ts =>
    let d := dispatchCheck N K t st
    let st2 := match d.1 with
      | Decision.admitted => finishRequest d.2
      | _ => d.2
    let r := runSeq N K st2 ts
    (d.1 :: r.1, r.2)

/-- The timestamps within the trailing 60-second window at time `t`. -/
def windowAt (t : Int) (l : List Int) : List Int :=
  l.filter (fun ts => t - 60 ≤ ts)

lemma dropWhile_all_false {α : Type} (p : α → Bool) (l : List α)
    (h : ∀ x ∈ l, p x = false) : l.dropWhile p = l := by
  cases l with
  | nil => rfl
  | cons a l =>
    rw [List.dropWhile_cons, if_neg]
    simp [h a (List.mem_cons_self a l)]

lemma dropWhile_all_true {α : Type} (p : α → Bool) :
    ∀ l : List α, (∀ x ∈ l, p x = true) → l.dropWhile p = [] := by
  intro l
  induction l with
  | nil => intro _; rfl
  | cons a l ih =>
    intro h
    rw [List.dropWhile_cons, if_pos (h a (List.mem_cons_self a l))]
    exact ih (fun x hx => h x (List.mem_cons_of_mem a hx))

lemma filter_dropWhile {α : Type} (p q : α → Bool) (hpq : ∀ x, q x = true → p x = false) :
    ∀ l : List α, (l.dropWhile q).filter p = l.filter p := by
  intro l
  induction l with
  | nil => rfl
  | cons a l ih =>
    by_cases hq : q a
    · rw [List.dropWhile_cons, if_pos hq, ih, List.filter_cons]
      simp [hpq a hq]
    · rw [List.dropWhile_cons, if_neg hq]

lemma windowAt_cleanRequests (t : Int) (l : List Int) :
    windowAt t (cleanRequests t l) = windowAt t l := by
  unfold windowAt cleanRequests
  apply filter_dropWhile
  intro x hx
  simp at hx ⊢
  omega

lemma dropWhile_sublist_self {α : Type} (p : α → Bool) :
    ∀ l : List α, List.Sublist (l.dropWhile p) l := by
  intro l
  induction l with
  | nil => exact List.Sublist.refl []
  | cons a l ih =>
    rw [List.dropWhile_cons]
    by_cases hp : p a
    · rw [if_pos hp]
      exact List.Sublist.trans ih (List.sublist_cons_self a l)
    · rw [if_neg hp]

/-- C10: a request rejected by admission control (for rate or concurrency)
appends no timestamp and does not touch the in-flight counter: the
post-state requests are exactly the cleaned deque, a sublist of the prior
deque, the trailing 60-second window is unchanged, and the in-flight
counter is unchanged. -/
theorem c10_rejected_leaves_state (N K : Nat) (t : Int) (st : ClientState)
    (h : (dispatchCheck N K t st).1 ≠ Decision.admitted) :
    (dispatchCheck N K t st).2.inflight = st.inflight
    ∧ (dispatchCheck N K t st).2.requests = cleanRequests t st.requests
    ∧ windowAt t (dispatchCheck N K t st).2.requests = windowAt t st.requests
    ∧ List.Sublist (dispatchCheck N K t st).2.requests st.requests := by
  by_cases h1 : N ≤ (cleanRequests t st.requests).length
  · have hd : dispatchCheck N K t st
        = (Decision.rejected rateLimitTag 60,
            { requests := cleanRequests t st.requests, inflight := st.inflight }) := by
      simp [dispatchCheck, h1]
    rw [hd]
    exact ⟨rfl, rfl, windowAt_cleanRequests t st.requests, dropWhile_sublist_self _ _⟩
  · by_cases h2 : K ≤ st.inflight
    · have hd : dispatchCheck N K t st
          = (Decision.rejected concurrentTag 10,
              { requests := cleanRequests t st.requests, inflight := st.inflight }) := by
        simp [dispatchCheck, h1, h2]
      rw [hd]
      exact ⟨rfl, rfl, windowAt_cleanRequests t st.requests, dropWhile_sublist_self _ _⟩
    · exfalso
      apply h
      simp [dispatchCheck, h1, h2]

/-- C10 witness: with limits 0 the request at time 0 is rejected and the
state is untouched. -/
theorem c10_witness :
    (dispatchCheck 0 0 0 ⟨[], 0⟩).1 ≠ Decision.admitted
    ∧ ((dispatchCheck 0 0 0 ⟨[], 0⟩).2.inflight = 0
      ∧ (dispatchCheck 0 0 0 ⟨[], 0⟩).2.requests = cleanRequests 0 []
      ∧ windowAt 0 (dispatchCheck 0 0 0 ⟨[], 0⟩).2.requests = windowAt 0 []
      ∧ List.Sublist (dispatchCheck 0 0 0 ⟨[], 0⟩).2.requests []) :=
  ⟨by decide, c10_rejected_leaves_state 0 0 0 ⟨[], 0⟩ (by decide)⟩

/-- C3: at concurrency capacity a further request is rejected with the
too-many-concurrent error and retry_after 10 (when rate admits it); the
try/finally decrements the in-flight counter exactly once whether the
downstream call returns or raises, while propagating the outcome; an
admitted request restores the counter once finished; and after any
in-flight request finishes, the freed slot admits a new request. -/
theorem c3_concurrency_release :
    (∀ (N K : Nat) (t : Int) (st : ClientState),
        (cleanRequests t st.requests).length < N → st.inflight = K →
        (dispatchCheck N K t st).1 = Decision.rejected concurrentTag 10)
    ∧ (∀ (ε ρ : Type) (st : ClientState) (e : ε) (r : ρ),
        (runAdmitted ε ρ st (Except.ok r)).2.inflight = st.inflight - 1
        ∧ (runAdmitted ε ρ st (Except.ok r)).1 = Except.ok r
        ∧ (runAdmitted ε ρ st (Except.error e)).2.inflight = st.inflight - 1
        ∧ (runAdmitted ε ρ st (Except.error e)).1 = Except.error e)
    ∧ (∀ (N K : Nat) (t : Int) (st : ClientState),
        (dispatchCheck N K t st).1 = Decision.admitted →
        (finishRequest (dispatchCheck N K t st).2).inflight = st.inflight)
    ∧ (∀ (N K : Nat) (t : Int) (st : ClientState),
        st.inflight = K → 0 < K →
        (cleanRequests t st.requests).length < N →
        (dispatchCheck N K t (finishRequest st)).1 = Decision.admitted) := by
  refine ⟨?_, ?_, ?_, ?_⟩
  · intro N K t st h1 h2
    have hr : ¬ (N ≤ (cleanRequests t st.requests).length) := by omega
    have hc : K ≤ st.inflight := by omega
    simp [dispatchCheck, hr, hc]
  · intro ε ρ st e r
    exact ⟨rfl, rfl, rfl, rfl⟩
  · intro N K t st h
    by_cases h1 : N ≤ (cleanRequests t st.requests).length
    · simp [dispatchCheck, h1] at h
    · by_cases h2 : K ≤ st.inflight
      · simp [dispatchCheck, h1, h2] at h
      · simp [dispatchCheck, h1, h2, finishRequest]
  · intro N K t st hK hKpos h1
    have hr : ¬ (N ≤ (cleanRequests t (finishRequest st).requests).length) := by
      simp only [finishRequest]
      omega
    have hc : ¬ (K ≤ (finishRequest st).inflight) := by
      simp only [finishRequest]
      omega
    simp [dispatchCheck, hr, hc]

/-- C3 witness: at limit 1 with one request in flight a second request is
rejected; after release it is admitted; the counter drops on the error
path too. -/
theorem c3_witness :
    (dispatchCheck 5 1 0 ⟨[], 1⟩).1 = Decision.rejected concurrentTag 10
    ∧ (dispatchCheck 5 1 0 (finishRequest ⟨[], 1⟩)).1 = Decision.admitted
    ∧ (runAdmitted Unit Unit ⟨[], 1⟩ (Except.error ())).2.inflight = 0 :=
  ⟨c3_concurrency_release.1 5 1 0 ⟨[], 1⟩ (by decide) rfl,
   c3_concurrency_release.2.2.2 5 1 0 ⟨[], 1⟩ rfl (by decide) (by decide),
   (c3_concurrency_release.2.1 Unit Unit ⟨[], 1⟩ () ()).2.2.1⟩

lemma chain_le_all :
    ∀ (l : List Int) (a : Int), List.Chain' (· ≤ ·) (a :: l) → ∀ x ∈ l, a ≤ x := by
  intro l
  induction l with
  | nil => intro a _ x hx; simp at hx
  | cons b l ih =>
    intro a h x hx
    rw [List.chain'_cons] at h
    rcases List.mem_cons.mp hx with rfl | hx'
    · exact h.1
    · exact le_trans h.1 (ih b h.2 x hx')

lemma chain_gap_all :
    ∀ (l : List Int) (a : Int),
      List.Chain' (fun x y => x + 60 < y) (a :: l) → ∀ x ∈ l, a + 60 < x := by
  intro l
  induction l with
  | nil => intro a _ x hx; simp at hx
  | cons b l ih =>
    intro a h x hx
    rw [List.chain'_cons] at h
    rcases List.mem_cons.mp hx with rfl | hx'
    · exact h.1
    · have := ih b h.2 x hx'
      omega

lemma cleanRequests_eq_windowAt :
    ∀ (l : List Int) (t : Int), List.Chain' (· ≤ ·) l →
      cleanRequests t l = windowAt t l := by
  intro l
  induction l with
  | nil => intro t _; rfl
  | cons a l ih =>
    intro t h
    by_cases ha : a < t - 60
    · have h1 : cleanRequests t (a :: l) = cleanRequests t l := by
        unfold cleanRequests
        rw [List.dropWhile_cons, if_pos (by simpa using ha)]
      have h2 : windowAt t (a :: l) = windowAt t l := by
        unfold windowAt
        rw [List.filter_cons]
        simp [show ¬ (t - 60 ≤ a) by omega]
      rw [h1, h2]
      exact ih t h.tail
    · have h1 : cleanRequests t (a :: l) = a :: l := by
        unfold cleanRequests
        rw [List.dropWhile_cons, if_neg (by simpa using ha)]
      have h2 : windowAt t (a :: l) = a :: l := by
        unfold windowAt
        rw [List.filter_eq_self]
        intro x hx
        rcases List.mem_cons.mp hx with rfl | hx'
        · simp
          omega
        · have := chain_le_all l a h x hx'
          simp
          omega
      rw [h1, h2]

lemma dispatchCheck_admits (N K : Nat) (t : Int) (st : ClientState)
    (h1 : (cleanRequests t st.requests).length < N) (h2 : st.inflight < K) :
    dispatchCheck N K t st
      = (Decision.admitted, ⟨cleanRequests t st.requests ++ [t], st.inflight + 1⟩) := by
  simp only [dispatchCheck]
  rw [if_neg (by omega), if_neg (by omega)]

lemma dispatchCheck_rate (N K : Nat) (t : Int) (st : ClientState)
    (h1 : N ≤ (cleanRequests t st.requests).length) :
    dispatchCheck N K t st
      = (Decision.rejected rateLimitTag 60, ⟨cleanRequests t st.requests, st.inflight⟩) := by
  simp only [dispatchCheck]
  rw [if_pos h1]

lemma runSeq_admit_all :
    ∀ (ts acc : List Int) (N K : Nat),
      0 < K →
      List.Chain' (· ≤ ·) (acc ++ ts) →
      (∀ a ∈ acc ++ ts, ∀ b ∈ acc ++ ts, a - 60 ≤ b) →
      acc.length + ts.length ≤ N →
      (runSeq N K ⟨acc, 0⟩ ts).1 = List.replicate ts.length Decision.admitted
      ∧ (runSeq N K ⟨acc, 0⟩ ts).2 = ⟨acc ++ ts, 0⟩ := by
  intro ts
  induction ts with
  | nil =>
    intro acc N K _ _ _ _
    exact ⟨rfl, by simp [runSeq]⟩
  | cons t ts ih =>
    intro acc N K hK hchain hwin hlen
    have hclean : cleanRequests t acc = acc := by
      apply dropWhile_all_false
      intro x hx
      have hx' : t - 60 ≤ x := hwin t (by simp) x (by simp [hx])
      simp
      omega
    have hdisp : dispatchCheck N K t ⟨acc, 0⟩ = (Decision.admitted, ⟨acc ++ [t], 1⟩) := by
      have h1 : (cleanRequests t (⟨acc, 0⟩ : ClientState).requests).length < N := by
        show (cleanRequests t acc).length < N
        rw [hclean]
        simp only [List.length_cons] at hlen
        omega
      have h2 : (⟨acc, 0⟩ : ClientState).inflight < K := hK
      rw [dispatchCheck_admits N K t ⟨acc, 0⟩ h1 h2]
      show (Decision.admitted, (⟨cleanRequests t acc ++ [t], 1⟩ : ClientState)) = _
      rw [hclean]
    have hchain' : List.Chain' (· ≤ ·) ((acc ++ [t]) ++ ts) := by
      simpa [List.append_assoc] using hchain
    have hwin' : ∀ a ∈ (acc ++ [t]) ++ ts, ∀ b ∈ (acc ++ [t]) ++ ts, a - 60 ≤ b := by
      intro a ha b hb
      apply hwin <;> simp at ha hb ⊢ <;> tauto
    have hlen' : (acc ++ [t]).length + ts.length ≤ N := by
      simp only [List.length_append, List.length_cons, List.length_nil] at hlen ⊢
      omega
    obtain ⟨ha, hb⟩ := ih (acc ++ [t]) N K hK hchain' hwin' hlen'
    refine ⟨?_, ?_⟩
    · show (runSeq N K ⟨acc, 0⟩ (t :: ts)).1 = _
      simp only [runSeq, hdisp, finishRequest, ha]
      rfl
    · show (runSeq N K ⟨acc, 0⟩ (t :: ts)).2 = _
      simp only [runSeq, hdisp, finishRequest, hb]
      simp [List.append_assoc]

lemma runSeq_append (N K : Nat) :
    ∀ (xs ys : List Int) (st : ClientState),
      runSeq N K st (xs ++ ys)
        = ((runSeq N K st xs).1 ++ (runSeq N K (runSeq N K st xs).2 ys).1,
           (runSeq N K (runSeq N K st xs).2 ys).2) := by
  intro xs
  induction xs with
  | nil => intro ys st; simp [runSeq]
  | cons x xs ih =>
    intro ys st
    simp only [List.cons_append, runSeq, List.append_eq]
    rw [ih]

lemma runSeq_spaced :
    ∀ (ts acc : List Int) (N K : Nat), 0 < N → 0 < K →
      List.Chain' (fun a b => a + 60 < b) ts →
      (∀ x ∈ acc, ∀ t ∈ ts, x < t - 60) →
      (runSeq N K ⟨acc, 0⟩ ts).1 = List.replicate ts.length Decision.admitted := by
  intro ts
  induction ts with
  | nil => intro acc N K _ _ _ _; rfl
  | cons t ts ih =>
    intro acc N K hN hK hchain hacc
    have hclean : cleanRequests t acc = [] := by
      apply dropWhile_all_true
      intro x hx
      have := hacc x hx t (by simp)
      simp
      omega
    have hdisp : dispatchCheck N K t ⟨acc, 0⟩ = (Decision.admitted, ⟨[t], 1⟩) := by
      have h1 : (cleanRequests t (⟨acc, 0⟩ : ClientState).requests).length < N := by
        show (cleanRequests t acc).length < N
        rw [hclean]
        simpa using hN
      have h2 : (⟨acc, 0⟩ : ClientState).inflight < K := hK
      rw [dispatchCheck_admits N K t ⟨acc, 0⟩ h1 h2]
      show (Decision.admitted, (⟨cleanRequests t acc ++ [t], 1⟩ : ClientState)) = _
      rw [hclean]
      rfl

    have hacc' : ∀ x ∈ [t], ∀ r ∈ ts, x < r - 60 := by
      intro x hx r hr
      rcases List.mem_singleton.mp hx with rfl
      have := chain_gap_all ts x hchain r hr
      omega
    have htail := ih [t] N K hN hK hchain.tail hacc'
    show (runSeq N K ⟨acc, 0⟩ (t :: ts)).1 = _
    simp only [runSeq, hdisp, finishRequest, htail]
    rfl

/-- C2 counterexample: with a configured per-minute limit of 0, the rate
check rejects every request, so two requests spaced more than 60 seconds
apart are both rejected; the claim quantifies over every configured limit
and asserts such requests are never rejected. -/
theorem c2_counterexample :
    List.Chain' (fun a b => a + 60 < b) [(0 : Int), 100]
    ∧ (runSeq 0 1 ⟨[], 0⟩ [(0 : Int), 100]).1
        = [Decision.rejected rateLimitTag 60, Decision.rejected rateLimitTag 60] := by
  constructor
  · exact List.chain'_cons.mpr ⟨by omega, List.chain'_singleton 100⟩
  · decide

/-- C2 (amended, limits at least 1, one request in flight at a time): for
a positive per-minute limit N and positive concurrency limit K, N+1
monotone requests all lying within one 60-second span produce N
admissions followed by a rejection with the rate-limited error and
retry_after 60; consecutive requests spaced more than 60 seconds apart
are all admitted; and on a monotone deque the lazy front cleanup retains
exactly the timestamps of the trailing 60-second window. -/
theorem c2_amended_rate_limit :
    (∀ (N K : Nat) (times : List Int) (tlast : Int),
        0 < K →
        List.Chain' (· ≤ ·) (times ++ [tlast]) →
        (∀ a ∈ times ++ [tlast], ∀ b ∈ times ++ [tlast], a - 60 ≤ b) →
        times.length = N →
        (runSeq N K ⟨[], 0⟩ (times ++ [tlast])).1
          = List.replicate N Decision.admitted ++ [Decision.rejected rateLimitTag 60])
    ∧ (∀ (N K : Nat) (times : List Int),
        0 < N → 0 < K →
        List.Chain' (fun a b => a + 60 < b) times →
        (runSeq N K ⟨[], 0⟩ times).1 = List.replicate times.length Decision.admitted)
    ∧ (∀ (t : Int) (l : List Int), List.Chain' (· ≤ ·) l →
        cleanRequests t l = windowAt t l) := by
  refine ⟨?_, ?_, ?_⟩
  · intro N K times tlast hK hchain hwin hlenN
    have hchain0 : List.Chain' (· ≤ ·) (([] : List Int) ++ times) := by
      simpa using (List.chain'_append.mp hchain).1
    have hwin0 : ∀ a ∈ ([] : List Int) ++ times, ∀ b ∈ ([] : List Int) ++ times,
        a - 60 ≤ b := by
      intro a ha b hb
      apply hwin <;> simp at ha hb ⊢ <;> tauto
    have hlen0 : ([] : List Int).length + times.length ≤ N := by simp [hlenN]
    obtain ⟨hdec, hst⟩ := runSeq_admit_all times [] N K hK hchain0 hwin0 hlen0
    simp only [List.nil_append] at hst
    rw [runSeq_append, hdec, hst, hlenN]
    have hcleanlast : cleanRequests tlast times = times := by
      apply dropWhile_all_false
      intro x hx
      have : tlast - 60 ≤ x := hwin tlast (by simp) x (by simp [hx])
      simp
      omega
    have hd := dispatchCheck_rate N K tlast ⟨times, 0⟩ (by
      show N ≤ (cleanRequests tlast times).length
      rw [hcleanlast, hlenN])
    have hsingle : (runSeq N K ⟨times, 0⟩ [tlast]).1
        = [Decision.rejected rateLimitTag 60] := by
      simp only [runSeq, hd]
    rw [hsingle]
  · intro N K times hN hK hchain
    exact runSeq_spaced times [] N K hN hK hchain (by intro x hx; simp at hx)
  · intro t l h
    exact cleanRequests_eq_windowAt l t h

/-- C2 witness: limit 2, three requests at 0, 10, 20 seconds: two
admissions then a rate rejection with retry_after 60. -/
theorem c2_witness :
    (0 : Nat) < 1
    ∧ (runSeq 2 1 ⟨[], 0⟩ ([(0 : Int), 10] ++ [20])).1
        = List.replicate 2 Decision.admitted ++ [Decision.rejected rateLimitTag 60] :=
  ⟨by decide,
   c2_amended_rate_limit.1 2 1 [0, 10] 20 (by decide)
     (List.chain'_cons.mpr ⟨by omega, List.chain'_cons.mpr ⟨by omega, List.chain'_singleton 20⟩⟩)
     (by decide) rfl⟩

end ELI5
